import Mathlib

/-!
Verification of the dependence-analysis pass (control dependence builder and
data dependence tracker) via a shallow embedding of the C++ sources
`ControlDependence.cpp` and `DataDependence.cpp`.

Basic blocks and instructions are identified by natural numbers.  The external
collaborators (CFG provider, post-dominator tree, memory-dependence oracle,
alias analysis) are modelled as records of functions supplied as inputs, which
is exactly how the pass consumes them.  Process-aborting events
(`assert(false)`, `llvm_unreachable`) are modelled by an explicit failure
outcome.
-/

namespace Dep

/-! ## Control Dependence Builder (ControlDependence.cpp) -/

/-- The CFG provider: an ordered list of basic blocks of the function and,
per block, its ordered successor list (`succ_begin`/`succ_end`). -/
structure CFG where
  blocks : List Nat
  succs : Nat → List Nat

/-- The post-dominator tree collaborator: `getNode(·)->getIDom()` (immediate
post-dominator, `none` at the root), `properlyDominates`, and
`findNearestCommonDominator` (`none` models a NULL result). -/
structure PDomTree where
  ipdom : Nat → Option Nat
  properlyDominates : Nat → Nat → Bool
  findNearestCommonDominator : Nat → Nat → Option Nat

/-- A CFG edge `(tail, head)`, i.e. `tail → head`. -/
abbrev CFGEdge := Nat × Nat

/-- `ControlDependence::getNonPDomEdges`: all CFG edges `(A,B)` such that `B`
does not properly post-dominate `A`, in block order then successor order. -/
def getNonPDomEdges (cfg : CFG) (pdt : PDomTree) : List CFGEdge :=
  cfg.blocks.flatMap (fun A =>
    ((cfg.succs A).filter (fun B => !pdt.properlyDominates B A)).map (fun B => (A, B)))

/-- The `while (curNode != parentA)` loop of
`ControlDependence::updateControlDependencies`: walk upward from `cur` via
immediate post-dominators, collecting each visited block, until the current
node equals `parentA`.  Dereferencing a NULL node (when `cur` runs off the
tree without meeting `parentA`) and running out of fuel (a cyclic `ipdom`,
impossible for a genuine tree) are both modelled as `none` (a crash). -/
def walkUp (ipdom : Nat → Option Nat) (parentA : Option Nat) :
    Nat → Option Nat → Option (List Nat)
  | 0, _ => none
  | fuel + 1, cur =>
    if cur = parentA then some []
    else
      match cur with
      | none => none
      | some b => (walkUp ipdom parentA fuel (ipdom b)).map (fun l => b :: l)

/-- Association-list lookup, shared by all three `std::map` models (the first
binding of the key wins). -/
def alookup {β : Type} (n : Nat) : List (Nat × β) → Option β
  | [] => none
  | p :: rest => if p.1 = n then some p.2 else alookup n rest

/-- The common `std::map` mutation pattern `map[n] = ...; / map[n].op(...)`:
if the key is present, rewrite its value through `g`; otherwise append a new
binding whose value is `g` of the default-constructed value. -/
def updIdx {β : Type} (n : Nat) (g : β → β) (dflt : β) (m : List (Nat × β)) :
    List (Nat × β) :=
  if m.any (fun p => p.1 = n) then
    m.map (fun p => if p.1 = n then (p.1, g p.2) else p)
  else
    m ++ [(n, g dflt)]

/-- The control dependence map `controlDeps_`: a `std::map` from a block to
its dependent-set, modelled as an association list with `Finset` values, new
keys appended at the end. -/
abbrev CDMap := List (Nat × Finset Nat)

/-- The map mutation done for one processed edge: `controlDeps_[A]`
default-creates an empty set for a missing key, then every block visited by
the upward walk is inserted into that set. -/
def updAdd (a : Nat) (path : List Nat) (m : CDMap) : CDMap :=
  updIdx a (fun s => s ∪ path.toFinset) ∅ m

/-- The effect one edge of `S` has in `updateControlDependencies`:
`fail` models a crash inside the upward walk, `skip` the `continue` taken when
`findNearestCommonDominator` returns NULL, and `upd a path` the insertion of
`path`'s blocks into `a`'s dependent-set. -/
inductive EdgeStep where
  | fail : EdgeStep
  | skip : EdgeStep
  | upd (a : Nat) (path : List Nat) : EdgeStep
deriving DecidableEq

/-- Computes the `EdgeStep` of one edge `(A,B)`: look up `L`, skip if NULL,
else walk upward from `B`'s node towards `A`'s immediate post-dominator. -/
def edgeStep (pdt : PDomTree) (fuel : Nat) (e : CFGEdge) : EdgeStep :=
  match pdt.findNearestCommonDominator e.1 e.2 with
  | none => .skip
  | some _ =>
    match walkUp pdt.ipdom (pdt.ipdom e.1) fuel (some e.2) with
    | none => .fail
    | some path => .upd e.1 path

/-- `ControlDependence::updateControlDependencies`: process the edges of `S`
in order, accumulating into the control dependence map; `none` models a
process abort (crash inside a walk). -/
def updateControlDependencies (pdt : PDomTree) (fuel : Nat) :
    List CFGEdge → CDMap → Option CDMap
  | [], m => some m
  | e :: es, m =>
    match edgeStep pdt fuel e with
    | .fail => none
    | .skip => updateControlDependencies pdt fuel es m
    | .upd a path => updateControlDependencies pdt fuel es (updAdd a path m)

/-- `ControlDependence::getControlDependencies`: compute `S` and fold its
edges into the (incoming, possibly already populated) control dependence
map.  The fuel bound `|blocks| + 1` covers every walk in a genuine
post-dominator tree over the function's blocks. -/
def getControlDependencies (cfg : CFG) (pdt : PDomTree) (m : CDMap) : Option CDMap :=
  updateControlDependencies pdt (cfg.blocks.length + 1) (getNonPDomEdges cfg pdt) m

/-- Whether the builder result `r` records block `x` as control-dependent on
block `a` (i.e. `x ∈ controlDeps[a]`). -/
def depOn (r : Option CDMap) (a x : Nat) : Bool :=
  match r with
  | none => false
  | some m =>
    match alookup a m with
    | none => false
    | some s => decide (x ∈ s)

/-! ### The loop scenario of C2: header `H = 0`, body `X = 1`, exit `Y = 2`,
edges `H→X`, `H→Y`, `X→H`.  Its post-dominator tree has root `Y`, with
`ipdom H = Y` and `ipdom X = H`; `Y` properly post-dominates `H` and `X`,
and `H` properly post-dominates `X`. -/

/-- The loop CFG of the self-dependence scenario. -/
def cfgLoop : CFG where
  blocks := [0, 1, 2]
  succs := fun b => if b = 0 then [1, 2] else if b = 1 then [0] else []

/-- The post-dominator tree of `cfgLoop`. -/
def pdtLoop : PDomTree where
  ipdom := fun b => if b = 0 then some 2 else if b = 1 then some 0 else none
  properlyDominates := fun b a =>
    (b = 2 && (a = 0 || a = 1)) || (b = 0 && a = 1)
  findNearestCommonDominator := fun a b =>
    if a = b then some a
    else if (a = 0 && b = 1) || (a = 1 && b = 0) then some 0
    else some 2

/-! ## Data Dependence Tracker (DataDependence.cpp) -/

/-- `enum DepType` of `DataDependence.h`. -/
inductive DepType where
  | Clobber
  | Def
  | NonFuncLocal
  | NonLocal
  | Unknown
  | Invalid
deriving DecidableEq

/-- `struct DepInfo`: the instruction depended on (possibly NULL, modelled as
`none`) together with the dependence kind. -/
structure DepInfo where
  depInst : Option Nat
  type : DepType
deriving DecidableEq

/-- `DepInfo::valid()`: a `DepInfo` is valid iff its kind is not `Invalid`. -/
def DepInfo.valid (d : DepInfo) : Bool :=
  !(d.type = DepType.Invalid : Bool)

/-- An `llvm::MemDepResult` as the tracker observes it: the five raw
predicates together with `getInst()` (`none` models a NULL instruction). -/
structure MemDepResult where
  isClobber : Bool
  isDef : Bool
  isNonFuncLocal : Bool
  isUnknown : Bool
  isNonLocal : Bool
  inst : Option Nat
deriving DecidableEq

/-- `DataDependence::getDepInfo`: test the raw predicates in source order and
build the correspondingly tagged `DepInfo` from `dep.getInst()`; `none`
models the trailing `llvm_unreachable("unknown dependence type")`. -/
def getDepInfo (dep : MemDepResult) : Option DepInfo :=
  if dep.isClobber then some ⟨dep.inst, .Clobber⟩
  else if dep.isDef then some ⟨dep.inst, .Def⟩
  else if dep.isNonFuncLocal then some ⟨dep.inst, .NonFuncLocal⟩
  else if dep.isUnknown then some ⟨dep.inst, .Unknown⟩
  else if dep.isNonLocal then some ⟨dep.inst, .NonLocal⟩
  else none

/-- The shape of an instruction as far as the tracker's `dyn_cast` chain is
concerned: a load or store carrying its `isUnordered()` answer, a
variadic-argument access, or any other instruction. -/
inductive InstKind where
  | load (unordered : Bool)
  | store (unordered : Bool)
  | vaarg
  | other
deriving DecidableEq

/-- An instruction as the tracker observes it: its identity, its shape, its
containing block (`getParent()`), and the `mayReadFromMemory` /
`mayWriteToMemory` classification used by the iteration filter. -/
structure Instruction where
  id : Nat
  kind : InstKind
  parent : Nat
  mayRead : Bool
  mayWrite : Bool
deriving DecidableEq

/-- One `NonLocalDepResult` entry: an accessed location paired with the
basic block it was found in. -/
abbrev NLEntry := Nat × Nat

/-- The external oracles: `MemoryDependenceAnalysis::getDependency`,
`AliasAnalysis::getLocation`, and
`MemoryDependenceAnalysis::getNonLocalPointerDependency` (location, isLoad
flag, containing block → ordered entries). -/
structure Oracle where
  getDependency : Nat → MemDepResult
  getLocation : Nat → Nat
  getNonLocalPointerDependency : Nat → Bool → Nat → List NLEntry

/-- The tracker's two maps `LocalDeps_` and `NonLocalDeps_`, modelled as
association lists with new keys appended at the end. -/
structure DDState where
  localDeps : List (Nat × DepInfo)
  nonLocalDeps : List (Nat × List NLEntry)
deriving DecidableEq

/-- `LocalDeps_[inst] = newInfo`: `std::map::operator[]` followed by
assignment, i.e. overwrite the existing binding or append a new one (the
default-constructed `DepInfo()` is `{NULL, Invalid}` and is immediately
overwritten). -/
def setLocal (n : Nat) (d : DepInfo) (m : List (Nat × DepInfo)) :
    List (Nat × DepInfo) :=
  updIdx n (fun _ => d) ⟨none, .Invalid⟩ m

/-- One iteration of the tracker's result loop:
`NonLocalDeps_[inst].push_back(*I)` — default-create the vector on first
touch, then append one entry. -/
def pushNL (n : Nat) (e : NLEntry) (m : List (Nat × List NLEntry)) :
    List (Nat × List NLEntry) :=
  updIdx n (fun v => v ++ [e]) [] m

/-- The whole `for (I = NLDep.begin() ...)` loop: push the oracle's entries
one by one, in order.  When `entries` is empty the map is untouched — in
particular no key is created. -/
def appendNL (n : Nat) (entries : List NLEntry) (m : List (Nat × List NLEntry)) :
    List (Nat × List NLEntry) :=
  entries.foldl (fun m e => pushNL n e m) m

/-- The fatal, process-aborting signals of `processDepResult`:
`llvm_unreachable` in `getDepInfo`, `assert(newInfo.valid())`,
`assert(newInfo.Type_ == NonLocal)`, the two atomic/volatile asserts, and
`llvm_unreachable("Unknown memory instruction!")`. -/
inductive FatalSig where
  | unknownDepType
  | invalidDepInfo
  | notNonLocalInfo
  | atomicLoad
  | atomicStore
  | unknownMemInst
deriving DecidableEq

/-- Outcome of processing: either the updated maps, or a fatal abort carrying
the signal, whether a warning was emitted first, and the maps at the moment
of the abort. -/
inductive ProcOut where
  | ok (st : DDState)
  | fatal (sig : FatalSig) (warned : Bool) (st : DDState)
deriving DecidableEq

/-- The maps at the end of the run, successful or aborted. -/
def ProcOut.state : ProcOut → DDState
  | .ok st => st
  | .fatal _ _ st => st

/-- `DataDependence::processDepResult`, translated branch by branch:
query the oracle; a not-non-local result is classified and stored
(overwriting) in `LocalDeps_` after the validity assert; a non-local result
is re-queried with `getNonLocalPointerDependency` — read-oriented (`true`)
for an unordered load, write-oriented (`false`) for an unordered store and
for a variadic-argument access — and the returned entries are appended to
`NonLocalDeps_[inst]`; atomic/volatile loads and stores warn and abort, and
any other instruction shape is `llvm_unreachable`. -/
def processDepResult (oracle : Oracle) (inst : Instruction) (st : DDState) : ProcOut :=
  let res := oracle.getDependency inst.id
  if !res.isNonLocal then
    match getDepInfo res with
    | none => .fatal .unknownDepType false st
    | some newInfo =>
      if newInfo.valid then
        .ok { st with localDeps := setLocal inst.id newInfo st.localDeps }
      else .fatal .invalidDepInfo false st
  else
    match getDepInfo res with
    | none => .fatal .unknownDepType false st
    | some newInfo =>
      if !(newInfo.type = DepType.NonLocal : Bool) then .fatal .notNonLocalInfo false st
      else
        match inst.kind with
        | .load u =>
          if !u then .fatal .atomicLoad true st
          else
            let nl := oracle.getNonLocalPointerDependency
              (oracle.getLocation inst.id) true inst.parent
            .ok { st with nonLocalDeps := appendNL inst.id nl st.nonLocalDeps }
        | .store u =>
          if !u then .fatal .atomicStore true st
          else
            let nl := oracle.getNonLocalPointerDependency
              (oracle.getLocation inst.id) false inst.parent
            .ok { st with nonLocalDeps := appendNL inst.id nl st.nonLocalDeps }
        | .vaarg =>
          let nl := oracle.getNonLocalPointerDependency
            (oracle.getLocation inst.id) false inst.parent
          .ok { st with nonLocalDeps := appendNL inst.id nl st.nonLocalDeps }
        | .other => .fatal .unknownMemInst false st

/-- `DataDependence::getDataDependencies`: iterate the instructions in
program order, skip those that neither read nor write memory, and process the
rest, stopping at the first fatal signal. -/
def getDataDependencies (oracle : Oracle) : List Instruction → DDState → ProcOut
  | [], st => .ok st
  | i :: is, st =>
    if !i.mayRead && !i.mayWrite then getDataDependencies oracle is st
    else
      match processDepResult oracle i st with
      | .ok st' => getDataDependencies oracle is st'
      | out => out

/-- The non-local entries the oracle hands back for instruction `i`, as
dictated by the flag and location the tracker passes for `i`'s shape. -/
def nlEntriesFor (oracle : Oracle) (i : Instruction) : List NLEntry :=
  match i.kind with
  | .load _ => oracle.getNonLocalPointerDependency (oracle.getLocation i.id) true i.parent
  | .store _ => oracle.getNonLocalPointerDependency (oracle.getLocation i.id) false i.parent
  | .vaarg => oracle.getNonLocalPointerDependency (oracle.getLocation i.id) false i.parent
  | .other => []

/-- Exactly one of the five raw oracle predicates holds. -/
def exactlyOne (r : MemDepResult) : Bool :=
  ((cond r.isClobber 1 0) + (cond r.isDef 1 0) + (cond r.isNonFuncLocal 1 0)
    + (cond r.isUnknown 1 0) + (cond r.isNonLocal 1 0) : Nat) = 1

/-- Membership of an instruction in exactly one of the two maps. -/
def inExactlyOneMap (n : Nat) (st : DDState) : Bool :=
  xor (st.localDeps.any (fun p => p.1 = n)) (st.nonLocalDeps.any (fun p => p.1 = n))

/-! ## Derived observables and concrete scenarios used in the statements -/

/-- A list of blocks each linked to the next by the immediate post-dominator
map: the tree path walked by the `while` loop. -/
def isChain (ipdom : Nat → Option Nat) : List Nat → Bool
  | [] => true
  | [_] => true
  | a :: b :: rest => decide (ipdom a = some b) && isChain ipdom (b :: rest)

/-- The dependence kinds a local record is allowed to carry:
`Clobber`, `Def`, `NonFuncLocal` or `Unknown`. -/
def goodKind : DepType → Bool
  | .Clobber => true
  | .Def => true
  | .NonFuncLocal => true
  | .Unknown => true
  | .NonLocal => false
  | .Invalid => false

/-- Every record of `LocalDeps_` has a non-`Invalid` kind. -/
def localAllValid (st : DDState) : Bool :=
  st.localDeps.all (fun p => decide (p.2.type ≠ DepType.Invalid))

/-- Every record of `LocalDeps_` has a kind in
`{Clobber, Def, NonFuncLocal, Unknown}`. -/
def localAllGood (st : DDState) : Bool :=
  st.localDeps.all (fun p => goodKind p.2.type)

/-- Every dependent-set of the control dependence map is non-empty. -/
def allNonemptyCD (m : CDMap) : Bool :=
  m.all (fun p => decide (p.2 ≠ ∅))

/-- The instruction is a key of `LocalDeps_`. -/
def hasLocal (n : Nat) (st : DDState) : Bool :=
  (alookup n st.localDeps).isSome

/-- The instruction is a key of `NonLocalDeps_`. -/
def hasNonLocal (n : Nat) (st : DDState) : Bool :=
  (alookup n st.nonLocalDeps).isSome

/-- Empty tracker state: both maps empty. -/
def ddEmpty : DDState := ⟨[], []⟩

/-- An oracle result with only the non-local predicate set and a NULL
instruction pointer, as `getDependency` reports when the queried block holds
no dependency. -/
def rPureNonLocal : MemDepResult := ⟨false, false, false, false, true, none⟩

/-- An oracle result with only the def predicate set, found instruction 3. -/
def rDefOnly : MemDepResult := ⟨false, true, false, false, false, some 3⟩

/-- An oracle result with only the clobber predicate set, instruction 5. -/
def rClobberOnly : MemDepResult := ⟨true, false, false, false, false, some 5⟩

/-- An oracle whose non-local pointer query answers one entry when asked
read-oriented and nothing when asked write-oriented: it makes the is-read
flag of the query observable. -/
def oracleFlag : Oracle :=
  ⟨fun _ => rPureNonLocal, fun _ => 9,
   fun _ isLoad _ => if isLoad then [(5, 2)] else []⟩

/-- An oracle answering a pure non-local result and an empty non-local entry
sequence for every query. -/
def oracleEmptyNL : Oracle := ⟨fun _ => rPureNonLocal, fun _ => 9, fun _ _ _ => []⟩

/-- An oracle answering a def-only (local) result for every instruction. -/
def oracleLocalDef : Oracle := ⟨fun _ => rDefOnly, fun _ => 9, fun _ _ _ => []⟩

/-- An unordered (plain) load, instruction 7 in block 2. -/
def instLoadU7 : Instruction := ⟨7, .load true, 2, true, false⟩

/-- An atomic/volatile load (`isUnordered() = false`), instruction 7 in
block 2. -/
def instLoadAtomic7 : Instruction := ⟨7, .load false, 2, true, false⟩

/-- An atomic/volatile store (`isUnordered() = false`), instruction 7 in
block 2. -/
def instStoreAtomic7 : Instruction := ⟨7, .store false, 2, false, true⟩

/-- A variadic-argument access, instruction 7 in block 2. -/
def instVA7 : Instruction := ⟨7, .vaarg, 2, true, false⟩

/-- The control dependence map the builder computes for `cfgLoop` /
`pdtLoop`: block 0 (the header) maps to the dependent-set `{1, 0}`. -/
def mLoop : CDMap := [(0, (∅ : Finset Nat) ∪ [1, 0].toFinset)]

/-! ## Generic lemmas about the association-list map model -/

theorem any_eq_alookup_isSome {β : Type} (n : Nat) (m : List (Nat × β)) :
    m.any (fun p => p.1 = n) = (alookup n m).isSome := by
  induction m with
  | nil => rfl
  | cons p rest ih =>
    by_cases h : p.1 = n <;> simp [alookup, h, ih]

theorem alookup_append {β : Type} (n : Nat) (m₁ m₂ : List (Nat × β)) :
    alookup n (m₁ ++ m₂) =
      match alookup n m₁ with
      | some v => some v
      | none => alookup n m₂ := by
  induction m₁ with
  | nil => simp [alookup]
  | cons p rest ih =>
    by_cases h : p.1 = n <;> simp [alookup, h, ih]

theorem alookup_map_upd {β : Type} (n : Nat) (g : β → β) (m : List (Nat × β)) :
    alookup n (m.map (fun p => if p.1 = n then (p.1, g p.2) else p)) =
      (alookup n m).map g := by
  induction m with
  | nil => rfl
  | cons p rest ih =>
    by_cases h : p.1 = n <;> simp [alookup, h, ih]

theorem alookup_map_upd_other {β : Type} (k n : Nat) (hk : k ≠ n) (g : β → β)
    (m : List (Nat × β)) :
    alookup k (m.map (fun p => if p.1 = n then (p.1, g p.2) else p)) =
      alookup k m := by
  induction m with
  | nil => rfl
  | cons p rest ih =>
    by_cases h : p.1 = n
    · have hpk : ¬p.1 = k := by
        intro hc
        exact hk (hc ▸ h)
      simp [alookup, h, hpk, Ne.symm hk, ih]
    · by_cases h2 : p.1 = k <;> simp [alookup, h, h2, hk, ih]

theorem alookup_updIdx_self {β : Type} (n : Nat) (g : β → β) (d : β)
    (m : List (Nat × β)) :
    alookup n (updIdx n g d m) = some (g ((alookup n m).getD d)) := by
  unfold updIdx
  by_cases h : m.any (fun p => p.1 = n)
  · rw [if_pos h, alookup_map_upd]
    rw [any_eq_alookup_isSome] at h
    cases hl : alookup n m with
    | none => rw [hl] at h; simp at h
    | some v => simp [hl]
  · rw [if_neg h, alookup_append]
    rw [any_eq_alookup_isSome] at h
    cases hl : alookup n m with
    | none => simp [alookup]
    | some v => rw [hl] at h; simp at h

theorem alookup_updIdx_other {β : Type} (k n : Nat) (hk : k ≠ n) (g : β → β)
    (d : β) (m : List (Nat × β)) :
    alookup k (updIdx n g d m) = alookup k m := by
  unfold updIdx
  by_cases h : m.any (fun p => p.1 = n)
  · rw [if_pos h, alookup_map_upd_other k n hk]
  · rw [if_neg h, alookup_append]
    cases hl : alookup k m with
    | none => simp [alookup, Ne.symm hk]
    | some v => simp

theorem mem_updIdx {β : Type} (n : Nat) (g : β → β) (d : β) (m : List (Nat × β))
    (p : Nat × β) (hp : p ∈ updIdx n g d m) : p ∈ m ∨ ∃ v, p.2 = g v := by
  unfold updIdx at hp
  by_cases h : m.any (fun p => p.1 = n)
  · rw [if_pos h] at hp
    obtain ⟨q, hq, hend⟩ := List.mem_map.mp hp
    by_cases hqn : q.1 = n
    · right
      rw [if_pos hqn] at hend
      exact ⟨q.2, by rw [← hend]⟩
    · left
      rw [if_neg hqn] at hend
      exact hend ▸ hq
  · rw [if_neg h] at hp
    rcases List.mem_append.mp hp with h1 | h2
    · exact Or.inl h1
    · right
      simp at h2
      exact ⟨d, by rw [h2]⟩

theorem keys_map_upd {β : Type} (n : Nat) (g : β → β) (m : List (Nat × β)) :
    (m.map (fun p => if p.1 = n then (p.1, g p.2) else p)).map Prod.fst =
      m.map Prod.fst := by
  induction m with
  | nil => rfl
  | cons p rest ih =>
    by_cases h : p.1 = n <;> simp [h, ih]

theorem nodup_keys_updIdx {β : Type} (n : Nat) (g : β → β) (d : β)
    (m : List (Nat × β)) (hm : (m.map Prod.fst).Nodup) :
    ((updIdx n g d m).map Prod.fst).Nodup := by
  unfold updIdx
  by_cases h : m.any (fun p => p.1 = n)
  · rw [if_pos h, keys_map_upd]
    exact hm
  · rw [if_neg h]
    rw [List.map_append]
    refine List.Nodup.append hm (by simp) ?_
    intro a ha hb
    simp only [List.map_cons, List.map_nil, List.mem_singleton] at hb
    subst hb
    obtain ⟨q, hq, hq1⟩ := List.mem_map.mp ha
    exact h (List.any_eq_true.mpr ⟨q, hq, by simp [hq1]⟩)

theorem map_upd_id {β : Type} (n : Nat) (g : β → β) (m : List (Nat × β))
    (h : ∀ p ∈ m, p.1 = n → g p.2 = p.2) :
    m.map (fun p => if p.1 = n then (p.1, g p.2) else p) = m := by
  induction m with
  | nil => rfl
  | cons p rest ih =>
    by_cases hp : p.1 = n
    · simp only [List.map_cons, if_pos hp]
      rw [h p (by simp) hp]
      rw [ih (fun q hq => h q (List.mem_cons_of_mem p hq))]
    · simp only [List.map_cons, if_neg hp]
      rw [ih (fun q hq => h q (List.mem_cons_of_mem p hq))]

theorem alookup_eq_of_mem_nodup {β : Type} (m : List (Nat × β))
    (hm : (m.map Prod.fst).Nodup) (p : Nat × β) (hp : p ∈ m) :
    alookup p.1 m = some p.2 := by
  induction m with
  | nil => cases hp
  | cons q rest ih =>
    rw [List.map_cons, List.nodup_cons] at hm
    rcases List.mem_cons.mp hp with h1 | h2
    · subst h1
      rw [alookup, if_pos rfl]
    · by_cases hq : q.1 = p.1
      · exact absurd (hq ▸ List.mem_map.mpr ⟨p, h2, rfl⟩) hm.1
      · rw [alookup, if_neg hq]
        exact ih hm.2 h2

theorem updIdx_id_of_nodup {β : Type} (n : Nat) (g : β → β) (d : β)
    (m : List (Nat × β)) (hm : (m.map Prod.fst).Nodup) (v : β)
    (hv : alookup n m = some v) (hgv : g v = v) : updIdx n g d m = m := by
  unfold updIdx
  have hany : m.any (fun p => p.1 = n) = true := by
    rw [any_eq_alookup_isSome, hv]
    rfl
  rw [if_pos hany]
  apply map_upd_id
  intro p hp hpn
  have hpv : p.2 = v := by
    have := alookup_eq_of_mem_nodup m hm p hp
    rw [hpn, hv] at this
    exact (Option.some.inj this).symm
  rw [hpv, hgv]

/-! ## Lemmas about the tracker's helpers -/

theorem appendNL_nil (n : Nat) (m : List (Nat × List NLEntry)) :
    appendNL n [] m = m := rfl

theorem alookup_appendNL_self (n : Nat) (es : List NLEntry)
    (m : List (Nat × List NLEntry)) (h : es ≠ []) :
    alookup n (appendNL n es m) = some ((alookup n m).getD [] ++ es) := by
  induction es generalizing m with
  | nil => exact absurd rfl h
  | cons e es ih =>
    rw [appendNL]
    cases es with
    | nil =>
      show alookup n (pushNL n e m) = _
      rw [pushNL, alookup_updIdx_self]
    | cons e2 es2 =>
      show alookup n (appendNL n (e2 :: es2) (pushNL n e m)) = _
      rw [ih (pushNL n e m) (by simp)]
      rw [pushNL, alookup_updIdx_self]
      simp

theorem alookup_appendNL_other (k n : Nat) (hk : k ≠ n) (es : List NLEntry)
    (m : List (Nat × List NLEntry)) :
    alookup k (appendNL n es m) = alookup k m := by
  induction es generalizing m with
  | nil => rfl
  | cons e es ih =>
    rw [appendNL]
    show alookup k (appendNL n es (pushNL n e m)) = _
    rw [ih (pushNL n e m), pushNL, alookup_updIdx_other k n hk]

theorem getDepInfo_inst_not_invalid (r : MemDepResult) (d : DepInfo)
    (h : getDepInfo r = some d) :
    d.depInst = r.inst ∧ d.type ≠ DepType.Invalid := by
  unfold getDepInfo at h
  split_ifs at h <;> cases h <;> exact ⟨rfl, by simp⟩

theorem getDepInfo_valid (r : MemDepResult) (d : DepInfo)
    (h : getDepInfo r = some d) : d.valid = true := by
  have := (getDepInfo_inst_not_invalid r d h).2
  simp [DepInfo.valid, this]

theorem getDepInfo_local_kind (r : MemDepResult) (d : DepInfo)
    (h : getDepInfo r = some d) (hnl : r.isNonLocal = false) :
    goodKind d.type = true := by
  unfold getDepInfo at h
  split_ifs at h <;> cases h <;> simp_all [goodKind]

/-! ## Branch characterization of `processDepResult` -/

theorem processDepResult_ok_local (oracle : Oracle) (i : Instruction)
    (st st' : DDState)
    (hnl : (oracle.getDependency i.id).isNonLocal = false)
    (hok : processDepResult oracle i st = .ok st') :
    ∃ d, getDepInfo (oracle.getDependency i.id) = some d
      ∧ st' = { st with localDeps := setLocal i.id d st.localDeps } := by
  simp only [processDepResult] at hok
  repeat' split at hok
  all_goals simp_all

theorem processDepResult_ok_nonlocal (oracle : Oracle) (i : Instruction)
    (st st' : DDState)
    (hnl : (oracle.getDependency i.id).isNonLocal = true)
    (hok : processDepResult oracle i st = .ok st') :
    st' = { st with
      nonLocalDeps := appendNL i.id (nlEntriesFor oracle i) st.nonLocalDeps } := by
  simp only [processDepResult] at hok
  repeat' split at hok
  all_goals simp_all [nlEntriesFor]

theorem processDepResult_fatal_state (oracle : Oracle) (i : Instruction)
    (st : DDState) (sig : FatalSig) (w : Bool) (st2 : DDState)
    (hout : processDepResult oracle i st = .fatal sig w st2) : st2 = st := by
  simp only [processDepResult] at hout
  repeat' split at hout
  all_goals cases hout <;> rfl

theorem processDepResult_localDeps (oracle : Oracle) (i : Instruction)
    (st : DDState) :
    (processDepResult oracle i st).state.localDeps = st.localDeps
    ∨ ∃ d, getDepInfo (oracle.getDependency i.id) = some d
        ∧ (oracle.getDependency i.id).isNonLocal = false
        ∧ (processDepResult oracle i st).state.localDeps
            = setLocal i.id d st.localDeps := by
  cases hout : processDepResult oracle i st with
  | fatal sig w st2 =>
    left
    have h2 := processDepResult_fatal_state oracle i st sig w st2 hout
    simp [ProcOut.state, h2]
  | ok st' =>
    cases hnl : (oracle.getDependency i.id).isNonLocal with
    | false =>
      obtain ⟨d, hdi, hst⟩ := processDepResult_ok_local oracle i st st' hnl hout
      right
      refine ⟨d, hdi, rfl, ?_⟩
      simp [ProcOut.state, hst]
    | true =>
      left
      have hst := processDepResult_ok_nonlocal oracle i st st' hnl hout
      simp [ProcOut.state, hst]

/-! ## Lemmas about the upward walk -/

theorem walkUp_reaches_parent (ipdom : Nat → Option Nat) (p : Nat) :
    ∀ (rest : List Nat) (b : Nat) (fuel : Nat),
      isChain ipdom (b :: rest) = true →
      ipdom ((b :: rest).getLast (List.cons_ne_nil b rest)) = some p →
      p ∉ b :: rest →
      (b :: rest).length < fuel →
      walkUp ipdom (some p) fuel (some b) = some (b :: rest) := by
  intro rest
  induction rest with
  | nil =>
    intro b fuel hchain hlast hnp hfuel
    have hlast' : ipdom b = some p := hlast
    have hpb : ¬((some b : Option Nat) = some p) := by
      simp only [Option.some.injEq]
      intro h
      exact hnp (by simp [h])
    cases fuel with
    | zero => exact absurd hfuel (by omega)
    | succ f =>
      cases f with
      | zero => exact absurd hfuel (by norm_num)
      | succ f2 =>
        simp only [walkUp]
        rw [if_neg hpb, hlast']
        simp [walkUp]
  | cons c rest' ih =>
    intro b fuel hchain hlast hnp hfuel
    have hbc : ipdom b = some c := by
      simp only [isChain, Bool.and_eq_true, decide_eq_true_eq] at hchain
      exact hchain.1
    have hchain' : isChain ipdom (c :: rest') = true := by
      simp only [isChain, Bool.and_eq_true, decide_eq_true_eq] at hchain
      exact hchain.2
    have hlast' : ipdom ((c :: rest').getLast (List.cons_ne_nil c rest')) = some p := by
      rw [List.getLast_cons (List.cons_ne_nil c rest')] at hlast
      exact hlast
    have hpb : ¬((some b : Option Nat) = some p) := by
      simp only [Option.some.injEq]
      intro h
      exact hnp (List.mem_cons.mpr (Or.inl h.symm))
    have hnprest : p ∉ c :: rest' := fun hm => hnp (List.mem_cons_of_mem b hm)
    cases fuel with
    | zero => exact absurd hfuel (by omega)
    | succ f =>
      simp only [walkUp]
      rw [if_neg hpb, hbc]
      rw [ih c f hchain' hlast' hnprest (by simp only [List.length_cons] at hfuel ⊢; omega)]
      rfl

theorem walkUp_to_root (ipdom : Nat → Option Nat) :
    ∀ (rest : List Nat) (b : Nat) (fuel : Nat),
      isChain ipdom (b :: rest) = true →
      ipdom ((b :: rest).getLast (List.cons_ne_nil b rest)) = none →
      (b :: rest).length < fuel →
      walkUp ipdom none fuel (some b) = some (b :: rest) := by
  intro rest
  induction rest with
  | nil =>
    intro b fuel hchain hlast hfuel
    have hlast' : ipdom b = none := hlast
    cases fuel with
    | zero => exact absurd hfuel (by omega)
    | succ f =>
      cases f with
      | zero => exact absurd hfuel (by norm_num)
      | succ f2 =>
        simp only [walkUp]
        rw [if_neg (by simp), hlast']
        simp [walkUp]
  | cons c rest' ih =>
    intro b fuel hchain hlast hfuel
    have hbc : ipdom b = some c := by
      simp only [isChain, Bool.and_eq_true, decide_eq_true_eq] at hchain
      exact hchain.1
    have hchain' : isChain ipdom (c :: rest') = true := by
      simp only [isChain, Bool.and_eq_true, decide_eq_true_eq] at hchain
      exact hchain.2
    have hlast' : ipdom ((c :: rest').getLast (List.cons_ne_nil c rest')) = none := by
      rw [List.getLast_cons (List.cons_ne_nil c rest')] at hlast
      exact hlast
    cases fuel with
    | zero => exact absurd hfuel (by omega)
    | succ f =>
      simp only [walkUp]
      rw [if_neg (by simp), hbc]
      rw [ih c f hchain' hlast' (by simp only [List.length_cons] at hfuel ⊢; omega)]
      rfl

theorem walkUp_cons (ipdom : Nat → Option Nat) (pa : Option Nat) (fuel : Nat)
    (b : Nat) (path : List Nat)
    (h : walkUp ipdom pa fuel (some b) = some path)
    (hne : (some b : Option Nat) ≠ pa) : ∃ t, path = b :: t := by
  cases fuel with
  | zero => cases h
  | succ f =>
    rw [show walkUp ipdom pa (f + 1) (some b)
        = if (some b : Option Nat) = pa then some []
          else (walkUp ipdom pa f (ipdom b)).map (fun l => b :: l) from rfl] at h
    rw [if_neg hne] at h
    cases hw : walkUp ipdom pa f (ipdom b) with
    | none => rw [hw] at h; cases h
    | some l =>
      rw [hw] at h
      exact ⟨l, (Option.some.inj h).symm⟩

/-! ## Lemmas about the builder run -/

theorem mem_getNonPDomEdges (cfg : CFG) (pdt : PDomTree) (e : CFGEdge)
    (he : e ∈ getNonPDomEdges cfg pdt) :
    pdt.properlyDominates e.2 e.1 = false := by
  simp only [getNonPDomEdges, List.mem_flatMap, List.mem_map, List.mem_filter] at he
  obtain ⟨A, _, B, ⟨_, hBf⟩, rfl⟩ := he
  simpa using hBf

theorem edgeStep_upd_walk (pdt : PDomTree) (fuel : Nat) (e : CFGEdge)
    (a : Nat) (path : List Nat)
    (hstep : edgeStep pdt fuel e = .upd a path) :
    a = e.1 ∧ walkUp pdt.ipdom (pdt.ipdom e.1) fuel (some e.2) = some path := by
  simp only [edgeStep] at hstep
  split at hstep
  · cases hstep
  · split at hstep
    · cases hstep
    · obtain ⟨h1, h2⟩ := EdgeStep.upd.inj hstep
      subst h1
      subst h2
      exact ⟨rfl, by assumption⟩

theorem updateCD_inv_nonempty (pdt : PDomTree) (fuel : Nat)
    (hcons : ∀ a p, pdt.ipdom a = some p → pdt.properlyDominates p a = true) :
    ∀ (es : List CFGEdge) (m m' : CDMap),
      (∀ e ∈ es, pdt.properlyDominates e.2 e.1 = false) →
      updateControlDependencies pdt fuel es m = some m' →
      (∀ p ∈ m, p.2 ≠ (∅ : Finset Nat)) → (∀ p ∈ m', p.2 ≠ ∅) := by
  intro es
  induction es with
  | nil =>
    intro m m' _ hrun hm
    cases hrun
    exact hm
  | cons e es ih =>
    intro m m' hS hrun hm
    cases hstep : edgeStep pdt fuel e with
    | fail => rw [updateControlDependencies, hstep] at hrun; cases hrun
    | skip =>
      rw [updateControlDependencies, hstep] at hrun
      exact ih m m' (fun e2 h2 => hS e2 (List.mem_cons_of_mem e h2)) hrun hm
    | upd a path =>
      rw [updateControlDependencies, hstep] at hrun
      obtain ⟨ha, hw⟩ := edgeStep_upd_walk pdt fuel e a path hstep
      have hne : (some e.2 : Option Nat) ≠ pdt.ipdom e.1 := by
        intro heq
        have := hcons e.1 e.2 heq.symm
        rw [hS e (List.mem_cons_self e es)] at this
        cases this
      obtain ⟨t, rfl⟩ := walkUp_cons pdt.ipdom (pdt.ipdom e.1) fuel e.2 path hw hne
      refine ih (updAdd a (e.2 :: t) m) m'
        (fun e2 h2 => hS e2 (List.mem_cons_of_mem e h2)) hrun ?_
      intro q hq
      rcases mem_updIdx a _ ∅ m q hq with hql | ⟨v, hqv⟩
      · exact hm q hql
      · rw [hqv]
        have hmem : e.2 ∈ v ∪ (e.2 :: t).toFinset :=
          Finset.mem_union_right v (by simp)
        exact Finset.ne_empty_of_mem hmem

theorem updateCD_nodup (pdt : PDomTree) (fuel : Nat) :
    ∀ (es : List CFGEdge) (m m' : CDMap),
      updateControlDependencies pdt fuel es m = some m' →
      (m.map Prod.fst).Nodup → (m'.map Prod.fst).Nodup := by
  intro es
  induction es with
  | nil =>
    intro m m' hrun hm
    cases hrun
    exact hm
  | cons e es ih =>
    intro m m' hrun hm
    cases hstep : edgeStep pdt fuel e with
    | fail => rw [updateControlDependencies, hstep] at hrun; cases hrun
    | skip =>
      rw [updateControlDependencies, hstep] at hrun
      exact ih m m' hrun hm
    | upd a path =>
      rw [updateControlDependencies, hstep] at hrun
      exact ih (updAdd a path m) m' hrun (nodup_keys_updIdx a _ ∅ m hm)

theorem updateCD_mono (pdt : PDomTree) (fuel : Nat) :
    ∀ (es : List CFGEdge) (m m' : CDMap),
      updateControlDependencies pdt fuel es m = some m' →
      ∀ (a : Nat) (s : Finset Nat), alookup a m = some s →
        ∃ s', alookup a m' = some s' ∧ s ⊆ s' := by
  intro es
  induction es with
  | nil =>
    intro m m' hrun a s hs
    cases hrun
    exact ⟨s, hs, le_refl s⟩
  | cons e es ih =>
    intro m m' hrun a s hs
    cases hstep : edgeStep pdt fuel e with
    | fail => rw [updateControlDependencies, hstep] at hrun; cases hrun
    | skip =>
      rw [updateControlDependencies, hstep] at hrun
      exact ih m m' hrun a s hs
    | upd a2 path =>
      rw [updateControlDependencies, hstep] at hrun
      by_cases haa : a = a2
      · subst haa
        have hl : alookup a (updAdd a path m) = some (s ∪ path.toFinset) := by
          rw [updAdd, alookup_updIdx_self, hs]
          rfl
        obtain ⟨s', hs', hsub⟩ := ih (updAdd a path m) m' hrun a _ hl
        exact ⟨s', hs', fun x hx => hsub (Finset.mem_union_left _ hx)⟩
      · have hl : alookup a (updAdd a2 path m) = some s := by
          rw [updAdd, alookup_updIdx_other a a2 haa, hs]
        exact ih (updAdd a2 path m) m' hrun a s hl

theorem updateCD_no_fail (pdt : PDomTree) (fuel : Nat) :
    ∀ (es : List CFGEdge) (m m' : CDMap),
      updateControlDependencies pdt fuel es m = some m' →
      ∀ e ∈ es, edgeStep pdt fuel e ≠ .fail := by
  intro es
  induction es with
  | nil => intro m m' _ e he; cases he
  | cons e2 es ih =>
    intro m m' hrun e he
    cases hstep : edgeStep pdt fuel e2 with
    | fail => rw [updateControlDependencies, hstep] at hrun; cases hrun
    | skip =>
      rw [updateControlDependencies, hstep] at hrun
      rcases List.mem_cons.mp he with h1 | h2
      · subst h1; rw [hstep]; intro hc; cases hc
      · exact ih m m' hrun e h2
    | upd a path =>
      rw [updateControlDependencies, hstep] at hrun
      rcases List.mem_cons.mp he with h1 | h2
      · subst h1; rw [hstep]; intro hc; cases hc
      · exact ih (updAdd a path m) m' hrun e h2

theorem updateCD_saturates (pdt : PDomTree) (fuel : Nat) :
    ∀ (es : List CFGEdge) (m m' : CDMap),
      updateControlDependencies pdt fuel es m = some m' →
      ∀ e ∈ es, ∀ (a : Nat) (path : List Nat),
        edgeStep pdt fuel e = .upd a path →
        ∃ s, alookup a m' = some s ∧ path.toFinset ⊆ s := by
  intro es
  induction es with
  | nil => intro m m' _ e he; cases he
  | cons e2 es ih =>
    intro m m' hrun e he a path hstep
    rcases List.mem_cons.mp he with h1 | h2
    · subst h1
      rw [updateControlDependencies, hstep] at hrun
      have hl : alookup a (updAdd a path m) =
          some ((alookup a m).getD ∅ ∪ path.toFinset) := by
        rw [updAdd, alookup_updIdx_self]
      obtain ⟨s', hs', hsub⟩ := updateCD_mono pdt fuel es _ m' hrun a _ hl
      exact ⟨s', hs', fun x hx => hsub (Finset.mem_union_right _ hx)⟩
    · cases hstep2 : edgeStep pdt fuel e2 with
      | fail => rw [updateControlDependencies, hstep2] at hrun; cases hrun
      | skip =>
        rw [updateControlDependencies, hstep2] at hrun
        exact ih m m' hrun e h2 a path hstep
      | upd a2 path2 =>
        rw [updateControlDependencies, hstep2] at hrun
        exact ih (updAdd a2 path2 m) m' hrun e h2 a path hstep

theorem updateCD_fixpoint (pdt : PDomTree) (fuel : Nat) :
    ∀ (es : List CFGEdge) (m : CDMap),
      (m.map Prod.fst).Nodup →
      (∀ e ∈ es, edgeStep pdt fuel e ≠ .fail) →
      (∀ e ∈ es, ∀ (a : Nat) (path : List Nat),
        edgeStep pdt fuel e = .upd a path →
        ∃ s, alookup a m = some s ∧ path.toFinset ⊆ s) →
      updateControlDependencies pdt fuel es m = some m := by
  intro es
  induction es with
  | nil => intro m _ _ _; rfl
  | cons e es ih =>
    intro m hnodup hnofail hsat
    cases hstep : edgeStep pdt fuel e with
    | fail => exact absurd hstep (hnofail e (List.mem_cons_self e es))
    | skip =>
      rw [updateControlDependencies, hstep]
      exact ih m hnodup (fun e2 h2 => hnofail e2 (List.mem_cons_of_mem e h2))
        (fun e2 h2 => hsat e2 (List.mem_cons_of_mem e h2))
    | upd a path =>
      rw [updateControlDependencies, hstep]
      obtain ⟨s, hs, hsub⟩ := hsat e (List.mem_cons_self e es) a path hstep
      have hid : updAdd a path m = m := by
        rw [updAdd]
        exact updIdx_id_of_nodup a _ ∅ m hnodup s hs (Finset.union_eq_left.mpr hsub)
      show updateControlDependencies pdt fuel es (updAdd a path m) = some m
      rw [hid]
      exact ih m hnodup (fun e2 h2 => hnofail e2 (List.mem_cons_of_mem e h2))
        (fun e2 h2 => hsat e2 (List.mem_cons_of_mem e h2))

/-! ## The claims -/

/-- C1 counterexample: the claim says a variadic-argument access issues the
non-local pointer-dependence query read-oriented, with the same is-read flag
as a load.  It does not: against an oracle that answers one entry to a
read-oriented query and nothing to a write-oriented query, processing a
variadic-argument access (instruction 7, block 2) ends differently from
processing an unordered load with the same identity, parent and oracle —
so the flag passed for the variadic-argument access is not the load's. -/
theorem C1_counterexample :
    processDepResult oracleFlag instVA7 ddEmpty
      ≠ processDepResult oracleFlag instLoadU7 ddEmpty := by decide

/-- C1 (amended): for a variadic-argument access whose oracle result is
non-local, the tracker issues the non-local pointer-dependence query
write-oriented — with the same is-read flag (`false`) it uses for an
unordered memory write (store): processing a variadic-argument instruction
is indistinguishable from processing an unordered store with the same
identity and parent, for every oracle and every starting state. -/
theorem C1_vaarg_write_oriented (oracle : Oracle) (st : DDState) (n p : Nat)
    (mr mw : Bool) :
    processDepResult oracle ⟨n, .vaarg, p, mr, mw⟩ st
      = processDepResult oracle ⟨n, .store true, p, mr, mw⟩ st := by
  simp only [processDepResult]
  cases hnl : (oracle.getDependency n).isNonLocal
  · simp
  · simp only [hnl, Bool.not_true]
    rw [if_neg (by simp), if_neg (by simp)]
    cases hdi : getDepInfo (oracle.getDependency n) with
    | none => rfl
    | some d =>
      cases ht : decide (d.type = DepType.NonLocal) <;> simp [ht]

/-- C2: for the loop CFG with header `H = 0` branching to body `X = 1` and
exit `Y = 2`, with back edge `X → H`, the Control Dependence Builder puts
`H` into its own dependent-set: `H ∈ controlDeps[H]`. -/
theorem C2_self_dependence :
    depOn (getControlDependencies cfgLoop pdtLoop []) 0 0 = true := by decide

/-- C3 counterexample: the claim says that after a non-local query the
instruction's key exists in the Non-Local map even when the oracle returns
no entries.  It does not: processing an unordered load with a pure
non-local result against an oracle returning an empty entry sequence
finishes without a fatal signal and leaves the instruction in neither map
(`NonLocalDeps_[inst]` is touched only inside the loop over the returned
entries). -/
theorem C3_counterexample :
    processDepResult oracleEmptyNL instLoadU7 ddEmpty = ProcOut.ok ddEmpty
    ∧ inExactlyOneMap 7 ddEmpty = false := by decide

/-- C3 (amended): for every memory-accessing instruction processed without a
fatal signal, starting from a state in which the instruction is in neither
map, afterwards it is a key of the Local map exactly when the oracle result
was local, and a key of the Non-Local map exactly when the result was
non-local and the oracle returned at least one entry (hence in at most one
map, and in neither exactly when a non-local query came back empty). -/
theorem C3_partition_amended (oracle : Oracle) (i : Instruction)
    (st st' : DDState)
    (hok : processDepResult oracle i st = .ok st')
    (hL : hasLocal i.id st = false) (hNL : hasNonLocal i.id st = false) :
    hasLocal i.id st' = !(oracle.getDependency i.id).isNonLocal
    ∧ hasNonLocal i.id st'
        = ((oracle.getDependency i.id).isNonLocal
            && !(nlEntriesFor oracle i).isEmpty) := by
  cases hnl : (oracle.getDependency i.id).isNonLocal
  · obtain ⟨d, hdi, hst⟩ := processDepResult_ok_local oracle i st st' hnl hok
    subst hst
    constructor
    · simp [hasLocal, setLocal, alookup_updIdx_self]
    · simpa [hasNonLocal] using hNL
  · have hst := processDepResult_ok_nonlocal oracle i st st' hnl hok
    subst hst
    constructor
    · simpa [hasLocal] using hL
    · cases hes : nlEntriesFor oracle i with
      | nil => simpa [hasNonLocal, hes, appendNL_nil] using hNL
      | cons e es =>
        simp [hasNonLocal, hes, alookup_appendNL_self i.id (e :: es) _ (by simp)]

/-- C3 witness: the amended partition at a concrete non-local load whose
oracle returns one entry. -/
theorem C3_witness :
    processDepResult oracleFlag instLoadU7 ddEmpty
      = ProcOut.ok ⟨[], [(7, [(5, 2)])]⟩
    ∧ (hasLocal 7 (⟨[], [(7, [(5, 2)])]⟩ : DDState)
          = !(oracleFlag.getDependency 7).isNonLocal
        ∧ hasNonLocal 7 (⟨[], [(7, [(5, 2)])]⟩ : DDState)
          = ((oracleFlag.getDependency 7).isNonLocal
              && !(nlEntriesFor oracleFlag instLoadU7).isEmpty)) :=
  ⟨by decide,
   C3_partition_amended oracleFlag instLoadU7 ddEmpty ⟨[], [(7, [(5, 2)])]⟩
     (by decide) (by decide) (by decide)⟩

/-- C4: for every atomic or volatile (not unordered) load or store whose
oracle result is non-local (only the non-local predicate holds), the tracker
raises the fatal unsupported-access signal after emitting a warning, and the
maps at the moment of the abort are the unchanged input maps — no entry was
stored for the instruction. -/
theorem C4_atomic_guard (oracle : Oracle) (i : Instruction) (st : DDState)
    (hc : (oracle.getDependency i.id).isClobber = false)
    (hd : (oracle.getDependency i.id).isDef = false)
    (hf : (oracle.getDependency i.id).isNonFuncLocal = false)
    (hu : (oracle.getDependency i.id).isUnknown = false)
    (hn : (oracle.getDependency i.id).isNonLocal = true) :
    (i.kind = .load false →
      processDepResult oracle i st = .fatal .atomicLoad true st)
    ∧ (i.kind = .store false →
      processDepResult oracle i st = .fatal .atomicStore true st) := by
  have hdi : getDepInfo (oracle.getDependency i.id)
      = some ⟨(oracle.getDependency i.id).inst, .NonLocal⟩ := by
    simp [getDepInfo, hc, hd, hf, hu, hn]
  constructor <;> intro hk <;> simp [processDepResult, hn, hdi, hk]

/-- C4 witness: the atomic guard at a concrete atomic load and a concrete
atomic store under a pure non-local oracle. -/
theorem C4_witness :
    processDepResult oracleEmptyNL instLoadAtomic7 ddEmpty
      = ProcOut.fatal FatalSig.atomicLoad true ddEmpty
    ∧ processDepResult oracleEmptyNL instStoreAtomic7 ddEmpty
      = ProcOut.fatal FatalSig.atomicStore true ddEmpty :=
  ⟨(C4_atomic_guard oracleEmptyNL instLoadAtomic7 ddEmpty
      (by decide) (by decide) (by decide) (by decide) (by decide)).1 (by decide),
   (C4_atomic_guard oracleEmptyNL instStoreAtomic7 ddEmpty
      (by decide) (by decide) (by decide) (by decide) (by decide)).2 (by decide)⟩

/-- C5: for a selected edge `(A,B)`, the upward walk starting at `B`'s
post-dominator-tree node visits exactly the tree path from `B`, stopping at
`A`'s immediate post-dominator parent without visiting it; if `A` has no
parent the walk visits everything from `B` up to and including the tree
root; and every visited block is added to `A`'s dependent-set. -/
theorem C5_upward_walk (ipdom : Nat → Option Nat) (b : Nat) (rest : List Nat)
    (fuel : Nat) :
    (∀ p : Nat, isChain ipdom (b :: rest) = true →
      (b :: rest).length < fuel →
      ipdom ((b :: rest).getLast (List.cons_ne_nil b rest)) = some p →
      p ∉ b :: rest →
      walkUp ipdom (some p) fuel (some b) = some (b :: rest))
    ∧ (isChain ipdom (b :: rest) = true →
      (b :: rest).length < fuel →
      ipdom ((b :: rest).getLast (List.cons_ne_nil b rest)) = none →
      walkUp ipdom none fuel (some b) = some (b :: rest))
    ∧ (∀ (a : Nat) (m : CDMap) (path : List Nat),
      alookup a (updAdd a path m)
        = some (((alookup a m).getD ∅) ∪ path.toFinset)) := by
  refine ⟨?_, ?_, ?_⟩
  · intro p hchain hfuel hlast hnp
    exact walkUp_reaches_parent ipdom p rest b fuel hchain hlast hnp hfuel
  · intro hchain hfuel hlast
    exact walkUp_to_root ipdom rest b fuel hchain hlast hfuel
  · intro a m path
    rw [updAdd, alookup_updIdx_self]

/-- C5 witness: the walk from `X = 1` in the loop tree stops at `Y = 2`
(parent of `H = 0`) having visited `[1, 0]`; the walk from the exit `2`
with no parent bound visits `[2]` up to the root; and a visited path is
united into the tail block's dependent-set. -/
theorem C5_witness :
    walkUp pdtLoop.ipdom (some 2) 4 (some 1) = some [1, 0]
    ∧ walkUp pdtLoop.ipdom none 4 (some 2) = some [2]
    ∧ alookup 0 (updAdd 0 [1, 0] ([] : CDMap))
        = some (((alookup 0 ([] : CDMap)).getD ∅) ∪ ([1, 0] : List Nat).toFinset) :=
  ⟨(C5_upward_walk pdtLoop.ipdom 1 [0] 4).1 2
      (by decide) (by decide) (by decide) (by decide),
   (C5_upward_walk pdtLoop.ipdom 2 [] 4).2.1 (by decide) (by decide) (by decide),
   (C5_upward_walk pdtLoop.ipdom 1 [0] 4).2.2 0 [] [1, 0]⟩

/-- C6: when exactly one of the five raw oracle predicates holds, the
classification produces the `DepInfo` tagged with the corresponding
dependence kind, preserving the oracle-reported instruction pointer; and a
record with kind `Invalid` is never present in the Local map after
processing, provided none was present before. -/
theorem C6_classification :
    (∀ r : MemDepResult, exactlyOne r = true →
      ((r.isClobber = true → getDepInfo r = some ⟨r.inst, .Clobber⟩)
        ∧ (r.isDef = true → getDepInfo r = some ⟨r.inst, .Def⟩)
        ∧ (r.isNonFuncLocal = true → getDepInfo r = some ⟨r.inst, .NonFuncLocal⟩)
        ∧ (r.isUnknown = true → getDepInfo r = some ⟨r.inst, .Unknown⟩)
        ∧ (r.isNonLocal = true → getDepInfo r = some ⟨r.inst, .NonLocal⟩)))
    ∧ (∀ (oracle : Oracle) (i : Instruction) (st : DDState),
        localAllValid st = true →
        localAllValid (processDepResult oracle i st).state = true) := by
  constructor
  · intro r h
    obtain ⟨c, d, f, u, nl, io⟩ := r
    cases c <;> cases d <;> cases f <;> cases u <;> cases nl <;>
      simp_all [exactlyOne, getDepInfo]
  · intro oracle i st hst
    rcases processDepResult_localDeps oracle i st with heq | ⟨d, hdi, hnl, heq⟩
    · rw [localAllValid, heq]
      exact hst
    · rw [localAllValid, heq, List.all_eq_true]
      intro p hp
      rcases mem_updIdx i.id _ _ st.localDeps p hp with hpm | ⟨v, hpv⟩
      · rw [localAllValid, List.all_eq_true] at hst
        exact hst p hpm
      · rw [hpv, decide_eq_true_eq]
        exact (getDepInfo_inst_not_invalid _ _ hdi).2

/-- C6 witness: the clobber predicate at a concrete result, and validity of
the Local map after a concrete local store. -/
theorem C6_witness :
    exactlyOne rClobberOnly = true
    ∧ getDepInfo rClobberOnly = some ⟨some 5, DepType.Clobber⟩
    ∧ localAllValid (processDepResult oracleLocalDef instLoadU7 ddEmpty).state
        = true :=
  ⟨by decide,
   (C6_classification.1 rClobberOnly (by decide)).1 (by decide),
   C6_classification.2 oracleLocalDef instLoadU7 ddEmpty (by decide)⟩

/-- C7: storing a local record overwrites — after ok-processing a local
result the Local map binds the instruction to exactly the freshly classified
record and the Non-Local map is untouched; non-local entries are appended to
the instruction's Non-Local record in oracle order, accumulating across
repeated queries, and the Local map is untouched; and the one-record-per-
instruction shape (no duplicate Local keys) is preserved. -/
theorem C7_store_semantics :
    (∀ (oracle : Oracle) (i : Instruction) (st st' : DDState) (d : DepInfo),
      (oracle.getDependency i.id).isNonLocal = false →
      processDepResult oracle i st = .ok st' →
      getDepInfo (oracle.getDependency i.id) = some d →
      alookup i.id st'.localDeps = some d ∧ st'.nonLocalDeps = st.nonLocalDeps)
    ∧ (∀ (oracle : Oracle) (i : Instruction) (st st' : DDState),
      (oracle.getDependency i.id).isNonLocal = true →
      processDepResult oracle i st = .ok st' →
      nlEntriesFor oracle i ≠ [] →
      alookup i.id st'.nonLocalDeps
        = some ((alookup i.id st.nonLocalDeps).getD [] ++ nlEntriesFor oracle i)
      ∧ st'.localDeps = st.localDeps)
    ∧ (∀ (oracle : Oracle) (i : Instruction) (st : DDState),
      (st.localDeps.map Prod.fst).Nodup →
      ((processDepResult oracle i st).state.localDeps.map Prod.fst).Nodup) := by
  refine ⟨?_, ?_, ?_⟩
  · intro oracle i st st' d hnl hok hdi
    obtain ⟨d2, hdi2, hst⟩ := processDepResult_ok_local oracle i st st' hnl hok
    rw [hdi] at hdi2
    have hdd : d = d2 := Option.some.inj hdi2
    subst hdd
    subst hst
    constructor
    · show alookup i.id (setLocal i.id d st.localDeps) = some d
      rw [setLocal, alookup_updIdx_self]
    · rfl
  · intro oracle i st st' hnl hok hne
    have hst := processDepResult_ok_nonlocal oracle i st st' hnl hok
    subst hst
    constructor
    · exact alookup_appendNL_self i.id _ _ hne
    · rfl
  · intro oracle i st hnodup
    rcases processDepResult_localDeps oracle i st with heq | ⟨d, _, _, heq⟩
    · rw [heq]
      exact hnodup
    · rw [heq]
      exact nodup_keys_updIdx i.id _ _ st.localDeps hnodup

/-- C7 witness: overwrite/untouched at a concrete local def result, append
at a concrete non-local load, and key-uniqueness preservation. -/
theorem C7_witness :
    (alookup 7 (⟨[(7, ⟨some 3, DepType.Def⟩)], []⟩ : DDState).localDeps
        = some ⟨some 3, DepType.Def⟩
      ∧ (⟨[(7, ⟨some 3, DepType.Def⟩)], []⟩ : DDState).nonLocalDeps
        = ddEmpty.nonLocalDeps)
    ∧ (alookup 7 (⟨[], [(7, [(5, 2)])]⟩ : DDState).nonLocalDeps
        = some ((alookup 7 ddEmpty.nonLocalDeps).getD []
            ++ nlEntriesFor oracleFlag instLoadU7)
      ∧ (⟨[], [(7, [(5, 2)])]⟩ : DDState).localDeps = ddEmpty.localDeps)
    ∧ ((processDepResult oracleLocalDef instLoadU7 ddEmpty).state.localDeps.map
        Prod.fst).Nodup :=
  ⟨C7_store_semantics.1 oracleLocalDef instLoadU7 ddEmpty
      ⟨[(7, ⟨some 3, DepType.Def⟩)], []⟩ ⟨some 3, DepType.Def⟩
      (by decide) (by decide) (by decide),
   C7_store_semantics.2.1 oracleFlag instLoadU7 ddEmpty
      ⟨[], [(7, [(5, 2)])]⟩ (by decide) (by decide) (by decide),
   C7_store_semantics.2.2 oracleLocalDef instLoadU7 ddEmpty (by decide)⟩

/-- C8: after a successful build over a consistent post-dominator tree (the
immediate post-dominator properly post-dominates its child), every key of
the control dependence map has a non-empty dependent-set. -/
theorem C8_keys_nonempty (cfg : CFG) (pdt : PDomTree) (m : CDMap)
    (hcons : ∀ a p, pdt.ipdom a = some p → pdt.properlyDominates p a = true)
    (hrun : getControlDependencies cfg pdt [] = some m) :
    allNonemptyCD m = true := by
  have h := updateCD_inv_nonempty pdt (cfg.blocks.length + 1) hcons
    (getNonPDomEdges cfg pdt) [] m
    (fun e he => mem_getNonPDomEdges cfg pdt e he) hrun
    (fun q hq => absurd hq (List.not_mem_nil q))
  rw [allNonemptyCD, List.all_eq_true]
  intro p hp
  exact decide_eq_true (h p hp)

/-- C8 witness: the loop scenario's map has only non-empty dependent-sets. -/
theorem C8_witness : allNonemptyCD mLoop = true :=
  C8_keys_nonempty cfgLoop pdtLoop mLoop
    (by
      intro a p h
      by_cases h0 : a = 0
      · subst h0
        simp [pdtLoop] at h
        subst h
        decide
      · by_cases h1 : a = 1
        · subst h1
          simp [pdtLoop] at h
          subst h
          decide
        · simp [pdtLoop, h0, h1] at h)
    rfl

/-- C9: running the Control Dependence Builder a second time on the same CFG
and post-dominator tree, over the map the first run produced, leaves the map
identical — same keys and same dependent-sets. -/
theorem C9_idempotent (cfg : CFG) (pdt : PDomTree) (m : CDMap)
    (hrun : getControlDependencies cfg pdt [] = some m) :
    getControlDependencies cfg pdt m = some m := by
  have hnodup : (m.map Prod.fst).Nodup :=
    updateCD_nodup pdt (cfg.blocks.length + 1) (getNonPDomEdges cfg pdt) [] m
      hrun (by simp)
  have hnofail := updateCD_no_fail pdt (cfg.blocks.length + 1)
    (getNonPDomEdges cfg pdt) [] m hrun
  have hsat := updateCD_saturates pdt (cfg.blocks.length + 1)
    (getNonPDomEdges cfg pdt) [] m hrun
  exact updateCD_fixpoint pdt (cfg.blocks.length + 1) (getNonPDomEdges cfg pdt)
    m hnodup hnofail hsat

/-- C9 witness: re-running on the loop scenario reproduces the same map. -/
theorem C9_witness : getControlDependencies cfgLoop pdtLoop mLoop = some mLoop :=
  C9_idempotent cfgLoop pdtLoop mLoop rfl

/-- C10: every record stored in the Local map has a dependence kind in
`{Clobber, Def, NonFuncLocal, Unknown}` — in particular `NonLocal` is never
stored there, because non-local results are diverted to the non-local branch
before any Local-map store; the property is preserved by processing any
instruction from any state satisfying it. -/
theorem C10_local_kinds (oracle : Oracle) (i : Instruction) (st : DDState)
    (hst : localAllGood st = true) :
    localAllGood (processDepResult oracle i st).state = true := by
  rcases processDepResult_localDeps oracle i st with heq | ⟨d, hdi, hnl, heq⟩
  · rw [localAllGood, heq]
    exact hst
  · rw [localAllGood, heq, List.all_eq_true]
    intro p hp
    rcases mem_updIdx i.id _ _ st.localDeps p hp with hpm | ⟨v, hpv⟩
    · rw [localAllGood, List.all_eq_true] at hst
      exact hst p hpm
    · rw [hpv]
      exact getDepInfo_local_kind _ _ hdi hnl

/-- C10 witness: the Local map after a concrete local def store carries only
kinds from the allowed set. -/
theorem C10_witness :
    localAllGood (processDepResult oracleLocalDef instLoadU7 ddEmpty).state
      = true :=
  C10_local_kinds oracleLocalDef instLoadU7 ddEmpty (by decide)

end Dep
